import Mathlib

/-!
# Verification of the in-place quicksort library (numeric and generic paths)

Shallow embedding of `src/lib.rs`. Rust `Vec<T>` is modelled as `List T`,
`usize` as `Nat`. Rust operations that can abort the process are modelled in
`Except Fault`:
* `Fault.underflow` models the debug-build panic on `usize` subtraction
  underflow (`high - 1` with `high == 0`, or `mid - 1` with `mid == 0`);
* `Fault.oob` models the index-out-of-bounds panic of `Vec` indexing;
* `Fault.fuelOut` is an embedding artifact: the generic recursive driver
  `quicksort_gen` does not terminate for every comparator, so both recursive
  drivers take an explicit fuel parameter.  For the numeric driver the fuel
  `high - low + 1` is proved sufficient (`quicksort_total`), so `fuelOut` is
  unreachable there and the top-level `sort` can be given its Rust type
  `List Int → List Int`.

The element type of the numeric path is `i64`; since the algorithm only
compares and swaps elements (no arithmetic on them), it is modelled as `Int`.
-/

namespace QSpec

/-- The ways a run of the (embedded) Rust code can fail to return normally. -/
inductive Fault : Type where
  | underflow : Fault
  | oob : Fault
  | fuelOut : Fault
deriving DecidableEq

/-- Model of `Vec::swap(i, j)`: exchange the elements at positions `i` and
`j`.  Rust panics when an index is out of bounds; in the algorithm every call
has both indices in range (proved below), so the out-of-range case is modelled
as the identity. -/
def swapL (l : List α) (i j : Nat) : List α :=
  match l[i]?, l[j]? with
  | some a, some b => (l.set i b).set j a
  | _, _ => l

/-- The half-open index window `[a, b)` of a list. -/
def window (l : List α) (a b : Nat) : List α :=
  (l.drop a).take (b - a)

/-- One shared model for the `for j in low..high` partition loops of
`partition` and `partition_gen`: the two Rust loop bodies are textually
identical except for the guard on the scanned element, which is passed here as
the predicate `p` (numeric: `arr[j] <= pivot`; generic:
`T::compare(&arr[j], &pivot) == Ordering::Less`).  The first argument is the
number of remaining iterations (`high - j`); `j` is the scan cursor and `idx`
the write cursor. -/
def pcore (p : α → Bool) : Nat → List α → Nat → Nat → Except Fault (List α × Nat)
  | 0, arr, idx, _ => .ok (arr, idx)
  | n + 1, arr, idx, j =>
    match arr[j]? with
    | none => .error .oob
    | some x =>
      if p x then pcore p n (swapL arr idx j) (idx + 1) (j + 1)
      else pcore p n arr idx (j + 1)

/-- Model of `fn partition(arr: &mut Vec<i64>, low: usize, high: usize) -> usize`:
read the pivot `arr[high - 1]`, then run the scan loop from `j = low` with write
cursor `idx = low`; the loop swaps exactly when `arr[j] <= pivot`. -/
def partition (arr : List Int) (low high : Nat) : Except Fault (List Int × Nat) :=
  if high = 0 then .error .underflow
  else
    match arr[high - 1]? with
    | none => .error .oob
    | some pivot => pcore (fun y => decide (y ≤ pivot)) (high - low) arr low low

/-- Model of `fn quicksort(arr: &mut Vec<i64>, low: usize, high: usize)`.
The Rust guard `low >= usize::MIN && high >= usize::MIN` is kept as the
(trivially true) test `0 ≤ low ∧ 0 ≤ high`.  `mid - 1` is a `usize`
subtraction, so `mid = 0` is an underflow fault. -/
def quicksort : Nat → List Int → Nat → Nat → Except Fault (List Int)
  | 0, _, _, _ => .error .fuelOut
  | fuel + 1, arr, low, high =>
    if 0 ≤ low ∧ 0 ≤ high then
      if low < high then
        match partition arr low high with
        | .error e => .error e
        | .ok (a1, mid) =>
          if mid = 0 then .error .underflow
          else
            match quicksort fuel a1 low (mid - 1) with
            | .error e => .error e
            | .ok a2 => quicksort fuel a2 mid high
      else .ok arr
    else .ok arr

/-- Model of `pub fn sort(arr: &mut Vec<i64>) -> &Vec<i64>`, which calls
`quicksort(arr, usize::MIN, arr.len())`.  The fuel `arr.length + 1` is proved
sufficient (`quicksort_total`), hence the error branch is unreachable and
`sort` has the total Rust type. -/
def sort (arr : List Int) : List Int :=
  match quicksort (arr.length + 1) arr 0 arr.length with
  | .ok res => res
  | .error _ => arr

/-- Model of `pub trait Comparator { fn compare(&self, other: &Self) -> Ordering; }`.
Rust's `Ordering::{Less, Equal, Greater}` is Lean's `Ordering.{lt, eq, gt}`. -/
class Comparator (T : Type) where
  compare : T → T → Ordering

/-- Model of `pub trait Copier { fn copy(&self) -> Self; }`. -/
class Copier (T : Type) where
  copy : T → T

/-- Model of `fn partition_gen<T: Comparator + Copier>(arr, low, high) -> usize`:
the pivot is `T::copy(&arr[high - 1])`, taken once before the loop; the loop
swaps exactly when `T::compare(&arr[j], &pivot) == Ordering::Less`. -/
def partitionGen [Comparator T] [Copier T] (arr : List T) (low high : Nat) :
    Except Fault (List T × Nat) :=
  if high = 0 then .error .underflow
  else
    match arr[high - 1]? with
    | none => .error .oob
    | some x =>
      let pivot : T := Copier.copy x
      pcore (fun y => decide (Comparator.compare y pivot = Ordering.lt)) (high - low) arr low low

/-- Model of `fn quicksort_gen<T: Comparator + Copier>(arr, low, high)`;
same structure as `quicksort`. -/
def quicksortGen [Comparator T] [Copier T] : Nat → List T → Nat → Nat → Except Fault (List T)
  | 0, _, _, _ => .error .fuelOut
  | fuel + 1, arr, low, high =>
    if 0 ≤ low ∧ 0 ≤ high then
      if low < high then
        match partitionGen arr low high with
        | .error e => .error e
        | .ok (a1, mid) =>
          if mid = 0 then .error .underflow
          else
            match quicksortGen fuel a1 low (mid - 1) with
            | .error e => .error e
            | .ok a2 => quicksortGen fuel a2 mid high
      else .ok arr
    else .ok arr

/-- Model of `pub fn sort_gen<T: Comparator + Copier>(arr: &mut Vec<T>) -> &Vec<T>`,
which calls `quicksort_gen(arr, usize::MIN, arr.len())`.  Unlike the numeric
path, no fuel is sufficient for every comparator (the recursion can repeat the
full range), so the fuel stays explicit. -/
def sortGen [Comparator T] [Copier T] (fuel : Nat) (arr : List T) : Except Fault (List T) :=
  quicksortGen fuel arr 0 arr.length

/-- `l` is ascending on the index window `[low, high)`. -/
def sortedOn (l : List Int) (low high : Nat) : Prop :=
  ∀ i j, low ≤ i → i < j → j < high → l.getD i 0 ≤ l.getD j 0

/-! ## Basic facts about `swapL` -/

theorem length_swapL (l : List α) (i j : Nat) : (swapL l i j).length = l.length := by
  unfold swapL
  split <;> simp [List.length_set]

theorem set_self_of_getElem? (l : List α) (i : Nat) (a : α) (h : l[i]? = some a) :
    l.set i a = l := by
  apply List.ext_getElem?
  intro n
  rw [List.getElem?_set]
  by_cases hin : i = n
  · subst hin
    rw [if_pos rfl, if_pos (List.getElem?_eq_some.mp h).1, h]
  · rw [if_neg hin]

theorem getElem?_swapL (l : List α) (i j k : Nat) (hi : i < l.length) (hj : j < l.length) :
    (swapL l i j)[k]? = if k = j then l[i]? else if k = i then l[j]? else l[k]? := by
  unfold swapL
  rw [List.getElem?_eq_getElem hi, List.getElem?_eq_getElem hj]
  simp only [List.getElem?_set, List.length_set]
  by_cases hkj : k = j
  · subst hkj
    simp [hi, hj, List.getElem?_eq_getElem]
  · by_cases hki : k = i
    · subst hki
      simp [hi, hj, hkj, Ne.symm hkj, List.getElem?_eq_getElem]
    · simp [hkj, hki, Ne.symm hkj, Ne.symm hki]

theorem getElem?_swapL_other (l : List α) (i j k : Nat) (hki : k ≠ i) (hkj : k ≠ j) :
    (swapL l i j)[k]? = l[k]? := by
  unfold swapL
  cases hi : l[i]? with
  | none => rfl
  | some a =>
    cases hj : l[j]? with
    | none => rfl
    | some b =>
      show ((l.set i b).set j a)[k]? = l[k]?
      rw [List.getElem?_set_ne (Ne.symm hkj), List.getElem?_set_ne (Ne.symm hki)]

theorem getElem?_swapL_fst (l : List α) (i j : Nat) (hi : i < l.length) (hj : j < l.length) :
    (swapL l i j)[i]? = l[j]? := by
  rw [getElem?_swapL l i j i hi hj]
  by_cases hij : i = j
  · rw [if_pos hij, hij]
  · rw [if_neg hij, if_pos rfl]

theorem count_set [DecidableEq α] (x b : α) :
    ∀ (l : List α) (i : Nat) (a : α), l[i]? = some a →
      (l.set i b).count x + (if a = x then 1 else 0) =
        l.count x + (if b = x then 1 else 0) := by
  intro l
  induction l with
  | nil => intro i a h; simp at h
  | cons c t ih =>
    intro i a h
    cases i with
    | zero =>
      simp only [List.getElem?_cons_zero, Option.some.injEq] at h
      subst h
      by_cases hbx : b = x <;> by_cases hcx : c = x <;>
        simp [List.count_cons, hbx, hcx] <;> try omega
    | succ n =>
      simp only [List.getElem?_cons_succ] at h
      have hih := ih n a h
      by_cases hax : a = x <;> by_cases hbx : b = x <;> by_cases hcx : c = x <;>
        simp [List.count_cons, hax, hbx, hcx] at hih ⊢ <;> try omega

theorem swapL_perm (l : List α) (i j : Nat) : List.Perm (swapL l i j) l := by
  classical
  unfold swapL
  cases hi : l[i]? with
  | none => exact List.Perm.refl l
  | some a =>
    cases hj : l[j]? with
    | none => exact List.Perm.refl l
    | some b =>
      show List.Perm ((l.set i b).set j a) l
      by_cases hij : i = j
      · subst hij
        have hab : a = b := by rw [hi] at hj; exact Option.some.inj hj
        subst hab
        rw [List.set_set, set_self_of_getElem? l i a hi]
      · rw [List.perm_iff_count]
        intro x
        have h1 := count_set x b l i a hi
        have hj' : (l.set i b)[j]? = some b := by
          rw [List.getElem?_set_ne hij]; exact hj
        have h2 := count_set x a (l.set i b) j b hj'
        by_cases hax : a = x <;> by_cases hbx : b = x <;>
          simp [hax, hbx] at h1 h2 ⊢ <;> omega

/-! ## Basic facts about `window` -/

theorem window_getElem? (l : List α) (a b i : Nat) :
    (window l a b)[i]? = if i < b - a then l[a + i]? else none := by
  unfold window
  rw [List.getElem?_take]
  by_cases h : i < b - a
  · rw [if_pos h, if_pos h, List.getElem?_drop]
  · rw [if_neg h, if_neg h]

theorem window_empty (l : List α) (a b : Nat) (h : b ≤ a) : window l a b = [] := by
  simp [window, Nat.sub_eq_zero_of_le h]

theorem window_full (l : List α) : window l 0 l.length = l := by
  simp [window]

theorem length_window (l : List α) (a b : Nat) (h : b ≤ l.length) :
    (window l a b).length = b - a := by
  simp only [window, List.length_take, List.length_drop]
  omega

theorem window_cons (l : List α) (a b : Nat) (x : α) (h : a < b) (hx : l[a]? = some x) :
    window l a b = x :: window l (a + 1) b := by
  apply List.ext_getElem?
  intro n
  rw [window_getElem?]
  cases n with
  | zero =>
    rw [if_pos (by omega), Nat.add_zero, hx, List.getElem?_cons_zero]
  | succ n =>
    rw [List.getElem?_cons_succ, window_getElem?]
    by_cases hn : n + 1 < b - a
    · rw [if_pos hn, if_pos (by omega)]
      congr 1
      omega
    · rw [if_neg hn, if_neg (by omega)]

theorem window_eq_of_agree (l1 l2 : List α) (a b : Nat)
    (hagree : ∀ k, a ≤ k → k < b → l1[k]? = l2[k]?) :
    window l1 a b = window l2 a b := by
  apply List.ext_getElem?
  intro n
  rw [window_getElem?, window_getElem?]
  by_cases h : n < b - a
  · rw [if_pos h, if_pos h]
    exact hagree (a + n) (by omega) (by omega)
  · rw [if_neg h, if_neg h]

theorem window_append (l : List α) (a b c : Nat) (hab : a ≤ b) (hbc : b ≤ c)
    (hc : c ≤ l.length) :
    window l a c = window l a b ++ window l b c := by
  apply List.ext_getElem?
  intro n
  rw [List.getElem?_append]
  rw [length_window l a b (le_trans hbc hc)]
  rw [window_getElem? l a c n, window_getElem? l a b n, window_getElem? l b c (n - (b - a))]
  by_cases h1 : n < b - a
  · simp only [if_pos h1, if_pos (show n < c - a by omega)]
  · simp only [if_neg h1]
    by_cases h2 : n < c - a
    · simp only [if_pos h2, if_pos (show n - (b - a) < c - b by omega)]
      congr 1
      omega
    · simp only [if_neg h2, if_neg (show ¬ (n - (b - a) < c - b) by omega)]

theorem mem_window (l : List α) (a b : Nat) (x : α) :
    x ∈ window l a b ↔ ∃ k, a ≤ k ∧ k < b ∧ l[k]? = some x := by
  rw [List.mem_iff_getElem?]
  constructor
  · rintro ⟨n, hn⟩
    rw [window_getElem?] at hn
    by_cases h : n < b - a
    · rw [if_pos h] at hn
      exact ⟨a + n, by omega, by omega, hn⟩
    · rw [if_neg h] at hn
      exact absurd hn (by simp)
  · rintro ⟨k, h1, h2, h3⟩
    refine ⟨k - a, ?_⟩
    rw [window_getElem?, if_pos (by omega)]
    have hka : a + (k - a) = k := by omega
    rw [hka]
    exact h3

theorem window_take (l : List α) (a b b' : Nat) (h : b' ≤ b) :
    window l a b' = (window l a b).take (b' - a) := by
  apply List.ext_getElem?
  intro n
  rw [window_getElem?, List.getElem?_take]
  by_cases h1 : n < b' - a
  · rw [if_pos h1, if_pos h1, window_getElem?, if_pos (by omega)]
  · rw [if_neg h1, if_neg h1]

theorem take_eq_of_agree (l1 l2 : List α) (a : Nat)
    (h : ∀ k, k < a → l1[k]? = l2[k]?) : l1.take a = l2.take a := by
  apply List.ext_getElem?
  intro n
  rw [List.getElem?_take, List.getElem?_take]
  by_cases hn : n < a
  · rw [if_pos hn, if_pos hn]
    exact h n hn
  · rw [if_neg hn, if_neg hn]

theorem drop_eq_of_agree (l1 l2 : List α) (b : Nat)
    (h : ∀ k, b ≤ k → l1[k]? = l2[k]?) : l1.drop b = l2.drop b := by
  apply List.ext_getElem?
  intro n
  rw [List.getElem?_drop, List.getElem?_drop]
  exact h (b + n) (by omega)

theorem window_decomp (l : List α) (a b : Nat) (hab : a ≤ b) (hb : b ≤ l.length) :
    l = l.take a ++ window l a b ++ l.drop b := by
  have h1 : window l a b ++ l.drop b = l.drop a := by
    have h2 : l.drop b = (l.drop a).drop (b - a) := by
      rw [List.drop_drop]
      congr 1
      omega
    rw [h2]
    exact List.take_append_drop (b - a) (l.drop a)
  rw [List.append_assoc, h1, List.take_append_drop]

theorem window_perm_of_frame (l1 l2 : List α) (a b : Nat)
    (hlen : l1.length = l2.length) (hperm : List.Perm l1 l2)
    (hframe : ∀ k, k < a ∨ b ≤ k → l1[k]? = l2[k]?)
    (hab : a ≤ b) (hb : b ≤ l1.length) :
    List.Perm (window l1 a b) (window l2 a b) := by
  have d1 := window_decomp l1 a b hab hb
  have d2 := window_decomp l2 a b hab (hlen ▸ hb)
  have ht : l1.take a = l2.take a :=
    take_eq_of_agree l1 l2 a (fun k hk => hframe k (Or.inl hk))
  have hd : l1.drop b = l2.drop b :=
    drop_eq_of_agree l1 l2 b (fun k hk => hframe k (Or.inr hk))
  rw [← Multiset.coe_eq_coe]
  have hm : (l1 : Multiset α) = (l2 : Multiset α) := Multiset.coe_eq_coe.mpr hperm
  rw [d1, d2, ht, hd] at hm
  simp only [← Multiset.coe_add] at hm
  exact add_left_cancel (add_right_cancel hm)

theorem filter_getLast? (p : α → Bool) :
    ∀ (l : List α) (a : α), l.getLast? = some a → p a = true →
      (l.filter p).getLast? = some a := by
  intro l
  induction l with
  | nil => intro a h; simp at h
  | cons x xs ih =>
    intro a hl hp
    cases hxs : xs with
    | nil =>
      subst hxs
      simp only [List.getLast?_singleton, Option.some.injEq] at hl
      subst hl
      simp [List.filter_cons, hp]
    | cons y ys =>
      have hl' : xs.getLast? = some a := by
        rw [hxs] at hl ⊢
        rw [List.getLast?_cons_cons] at hl
        exact hl
      have ihh := ih a hl' hp
      rw [List.filter_cons]
      by_cases hpx : p x = true
      · rw [if_pos hpx]
        rw [← hxs]
        cases hf : xs.filter p with
        | nil => rw [hf] at ihh; simp at ihh
        | cons z zs =>
          rw [List.getLast?_cons_cons, ← hf]
          exact ihh
      · rw [if_neg hpx, ← hxs]
        exact ihh

/-! ## The partition scan loop: invariants

`pcore p n arr idx j` models the remaining iterations `j, j+1, …, j+n-1` of
the scan loop, i.e. the window `[j, j+n)` still to be scanned, with `high =
j + n`.  The master lemma below collects everything the rest of the
development needs: length preservation, permutation, the frame (positions
below the write cursor and at or above `high` are untouched), bounds on the
final write cursor, and the characterisation of the left part as the stable
filter of the scanned window. -/

theorem pcore_ok_spec (p : α → Bool) :
    ∀ (n : Nat) (arr : List α) (idx j : Nat) (arr' : List α) (idx' : Nat),
      pcore p n arr idx j = .ok (arr', idx') → idx ≤ j →
      arr'.length = arr.length ∧
      List.Perm arr' arr ∧
      (∀ k, k < idx ∨ j + n ≤ k → arr'[k]? = arr[k]?) ∧
      idx ≤ idx' ∧ idx' ≤ idx + n ∧
      window arr' idx idx' = (window arr j (j + n)).filter p ∧
      (0 < n → j + n ≤ arr.length) := by
  intro n
  induction n with
  | zero =>
    intro arr idx j arr' idx' hok _hij
    simp only [pcore, Except.ok.injEq, Prod.mk.injEq] at hok
    obtain ⟨rfl, rfl⟩ := hok
    refine ⟨rfl, List.Perm.refl _, fun k _ => rfl, le_refl _, by omega, ?_, by omega⟩
    rw [window_empty arr idx idx (le_refl _), Nat.add_zero,
      window_empty arr j j (le_refl _), List.filter_nil]
  | succ n ih =>
    intro arr idx j arr' idx' hok hij
    cases hx : arr[j]? with
    | none =>
      simp only [pcore, hx] at hok
      exact Except.noConfusion hok
    | some x =>
      simp only [pcore, hx] at hok
      have hjlen : j < arr.length := (List.getElem?_eq_some.mp hx).1
      by_cases hpx : p x = true
      · rw [if_pos hpx] at hok
        have hswlen : (swapL arr idx j).length = arr.length := length_swapL arr idx j
        obtain ⟨L1, P1, F1, D1, D1', E1, B1⟩ :=
          ih (swapL arr idx j) (idx + 1) (j + 1) arr' idx' hok (by omega)
        have hframe : ∀ k, k < idx ∨ j + (n + 1) ≤ k → arr'[k]? = arr[k]? := by
          intro k hk
          have h1 : arr'[k]? = (swapL arr idx j)[k]? := F1 k (by omega)
          have h2 : (swapL arr idx j)[k]? = arr[k]? :=
            getElem?_swapL_other arr idx j k (by omega) (by omega)
          exact h1.trans h2
        refine ⟨L1.trans hswlen, P1.trans (swapL_perm arr idx j), hframe,
          by omega, by omega, ?_, ?_⟩
        · -- left part is the stable filter of the scanned window
          have hsw_idx : (swapL arr idx j)[idx]? = some x := by
            rw [getElem?_swapL_fst arr idx j (by omega) hjlen]
            exact hx
          have hxidx : arr'[idx]? = some x :=
            (F1 idx (Or.inl (by omega))).trans hsw_idx
          have hcons : window arr' idx idx' = x :: window arr' (idx + 1) idx' :=
            window_cons arr' idx idx' x (by omega) hxidx
          have hwin : window (swapL arr idx j) (j + 1) (j + 1 + n)
              = window arr (j + 1) (j + 1 + n) := by
            apply window_eq_of_agree
            intro k hk1 _hk2
            exact getElem?_swapL_other arr idx j k (by omega) (by omega)
          have hwcons : window arr j (j + (n + 1)) = x :: window arr (j + 1) (j + (n + 1)) :=
            window_cons arr j (j + (n + 1)) x (by omega) hx
          have hadd : j + 1 + n = j + (n + 1) := by omega
          rw [hcons, E1, hwin, hadd, hwcons, List.filter_cons, if_pos hpx]
        · -- the scanned window stays in bounds
          intro _
          cases Nat.eq_zero_or_pos n with
          | inl h0 => omega
          | inr hpos =>
            have := B1 hpos
            omega
      · rw [if_neg hpx] at hok
        obtain ⟨L1, P1, F1, D1, D1', E1, B1⟩ := ih arr idx (j + 1) arr' idx' hok (by omega)
        have hframe : ∀ k, k < idx ∨ j + (n + 1) ≤ k → arr'[k]? = arr[k]? := by
          intro k hk
          exact F1 k (by omega)
        refine ⟨L1, P1, hframe, D1, by omega, ?_, ?_⟩
        · have hwcons : window arr j (j + (n + 1)) = x :: window arr (j + 1) (j + (n + 1)) :=
            window_cons arr j (j + (n + 1)) x (by omega) hx
          have hadd : j + 1 + n = j + (n + 1) := by omega
          rw [E1, hadd, hwcons, List.filter_cons, if_neg hpx]
        · intro _
          cases Nat.eq_zero_or_pos n with
          | inl h0 => omega
          | inr hpos =>
            have := B1 hpos
            omega

theorem pcore_total (p : α → Bool) :
    ∀ (n : Nat) (arr : List α) (idx j : Nat), j + n ≤ arr.length →
      ∃ r, pcore p n arr idx j = .ok r := by
  intro n
  induction n with
  | zero => exact fun arr idx j _ => ⟨(arr, idx), rfl⟩
  | succ n ih =>
    intro arr idx j hlen
    have hj : j < arr.length := by omega
    have hx : arr[j]? = some arr[j] := List.getElem?_eq_getElem hj
    simp only [pcore, hx]
    by_cases hpx : p arr[j] = true
    · rw [if_pos hpx]
      exact ih (swapL arr idx j) (idx + 1) (j + 1) (by rw [length_swapL]; omega)
    · rw [if_neg hpx]
      exact ih arr idx (j + 1) (by omega)

/-- Packaged specification of a whole partition scan `pcore p (high - low) arr
low low`, as performed by both `partition` and `partitionGen`. -/
theorem pcoreRun_spec (p : α → Bool) (arr arr' : List α) (low high mid : Nat)
    (hok : pcore p (high - low) arr low low = .ok (arr', mid))
    (hlh : low ≤ high) (hlen : high ≤ arr.length) :
    arr'.length = arr.length ∧
    List.Perm arr' arr ∧
    (∀ k, k < low ∨ high ≤ k → arr'[k]? = arr[k]?) ∧
    low ≤ mid ∧ mid ≤ high ∧
    window arr' low mid = (window arr low high).filter p ∧
    (∀ x ∈ window arr' low mid, p x = true) ∧
    (∀ x ∈ window arr' mid high, p x = false) ∧
    (∀ pv, arr[high - 1]? = some pv → p pv = true → low < high →
      low < mid ∧ arr'[mid - 1]? = some pv) := by
  have hjn : low + (high - low) = high := by omega
  obtain ⟨L, P, F, D, D', E, _B⟩ :=
    pcore_ok_spec p (high - low) arr low low arr' mid hok (le_refl low)
  rw [hjn] at F E
  have hmidhigh : mid ≤ high := by omega
  have hleft : ∀ x ∈ window arr' low mid, p x = true := by
    intro x hx
    rw [E] at hx
    exact (List.mem_filter.mp hx).2
  have hsplit : window arr' low high = window arr' low mid ++ window arr' mid high :=
    window_append arr' low mid high (by omega) hmidhigh (by omega)
  have hwperm : List.Perm (window arr' low high) (window arr low high) :=
    window_perm_of_frame arr' arr low high L P F hlh (by omega)
  have hrightm : (window arr' mid high : Multiset α)
      = ((window arr low high).filter (fun y => !p y) : List α) := by
    have h1 : ((window arr' low high : List α) : Multiset α) = (window arr low high : List α) :=
      Multiset.coe_eq_coe.mpr hwperm
    have h2 : (((window arr low high).filter p ++
        (window arr low high).filter (fun y => !p y) : List α) : Multiset α)
        = (window arr low high : List α) :=
      Multiset.coe_eq_coe.mpr (List.filter_append_perm p (window arr low high))
    rw [hsplit] at h1
    rw [← h2] at h1
    rw [← E] at h1
    simp only [← Multiset.coe_add] at h1
    exact add_left_cancel h1
  have hright : ∀ x ∈ window arr' mid high, p x = false := by
    intro x hx
    have hx' : x ∈ (window arr low high).filter (fun y => !p y) := by
      rw [← Multiset.mem_coe, ← hrightm, Multiset.mem_coe]
      exact hx
    have := (List.mem_filter.mp hx').2
    simp only [Bool.not_eq_true'] at this
    exact this
  refine ⟨L, P, F, by omega, hmidhigh, E, hleft, hright, ?_⟩
  intro pv hpv hp hlow
  have hwlast : (window arr low high).getLast? = some pv := by
    rw [List.getLast?_eq_getElem?, length_window arr low high hlen, window_getElem?]
    rw [if_pos (by omega)]
    have h1 : low + (high - low - 1) = high - 1 := by omega
    rw [h1]
    exact hpv
  have hfl : ((window arr low high).filter p).getLast? = some pv :=
    filter_getLast? p (window arr low high) pv hwlast hp
  rw [← E] at hfl
  have hmidlow : low < mid := by
    by_contra hcon
    push_neg at hcon
    rw [window_empty arr' low mid hcon] at hfl
    simp at hfl
  refine ⟨hmidlow, ?_⟩
  rw [List.getLast?_eq_getElem?, length_window arr' low mid (by omega), window_getElem?] at hfl
  rw [if_pos (by omega)] at hfl
  have h2 : low + (mid - low - 1) = mid - 1 := by omega
  rw [h2] at hfl
  exact hfl

/-! ## Specifications of the two partition functions -/

theorem partition_ok_spec (arr arr' : List Int) (low high mid : Nat)
    (hok : partition arr low high = .ok (arr', mid)) (hlh : low ≤ high) :
    ∃ pivot, arr[high - 1]? = some pivot ∧
      1 ≤ high ∧ high ≤ arr.length ∧
      arr'.length = arr.length ∧ List.Perm arr' arr ∧
      (∀ k, k < low ∨ high ≤ k → arr'[k]? = arr[k]?) ∧
      low ≤ mid ∧ mid ≤ high ∧
      window arr' low mid = (window arr low high).filter (fun y => decide (y ≤ pivot)) ∧
      (∀ x ∈ window arr' low mid, x ≤ pivot) ∧
      (∀ x ∈ window arr' mid high, pivot < x) ∧
      (low < high → low < mid ∧ arr'[mid - 1]? = some pivot) := by
  by_cases h0 : high = 0
  · rw [partition, if_pos h0] at hok
    exact Except.noConfusion hok
  · cases hpv : arr[high - 1]? with
    | none =>
      simp only [partition, if_neg h0, hpv] at hok
      exact Except.noConfusion hok
    | some pivot =>
      simp only [partition, if_neg h0, hpv] at hok
      have hlen : high ≤ arr.length := by
        have := (List.getElem?_eq_some.mp hpv).1
        omega
      obtain ⟨L, P, F, hlm, hmh, E, hleftp, hrightp, hlast⟩ :=
        pcoreRun_spec _ arr arr' low high mid hok hlh hlen
      refine ⟨pivot, rfl, by omega, hlen, L, P, F, hlm, hmh, E, ?_, ?_, ?_⟩
      · intro x hx
        exact of_decide_eq_true (hleftp x hx)
      · intro x hx
        have hnot : ¬ (x ≤ pivot) := of_decide_eq_false (hrightp x hx)
        exact not_le.mp hnot
      · intro hlow
        exact hlast pivot hpv (by simp) hlow

theorem partitionGen_ok_spec {T : Type} [Comparator T] [Copier T]
    (arr arr' : List T) (low high mid : Nat)
    (hok : partitionGen arr low high = .ok (arr', mid)) (hlh : low ≤ high) :
    ∃ pv, arr[high - 1]? = some pv ∧
      1 ≤ high ∧ high ≤ arr.length ∧
      arr'.length = arr.length ∧ List.Perm arr' arr ∧
      (∀ k, k < low ∨ high ≤ k → arr'[k]? = arr[k]?) ∧
      low ≤ mid ∧ mid ≤ high ∧
      window arr' low mid = (window arr low high).filter
        (fun y => decide (Comparator.compare y (Copier.copy pv) = Ordering.lt)) ∧
      (∀ x ∈ window arr' low mid, Comparator.compare x (Copier.copy pv) = Ordering.lt) ∧
      (∀ x ∈ window arr' mid high, ¬ Comparator.compare x (Copier.copy pv) = Ordering.lt) ∧
      (Comparator.compare pv (Copier.copy pv) = Ordering.lt → low < high →
        low < mid ∧ arr'[mid - 1]? = some pv) := by
  by_cases h0 : high = 0
  · rw [partitionGen, if_pos h0] at hok
    exact Except.noConfusion hok
  · cases hpv : arr[high - 1]? with
    | none =>
      simp only [partitionGen, if_neg h0, hpv] at hok
      exact Except.noConfusion hok
    | some pv =>
      simp only [partitionGen, if_neg h0, hpv] at hok
      have hlen : high ≤ arr.length := by
        have := (List.getElem?_eq_some.mp hpv).1
        omega
      obtain ⟨L, P, F, hlm, hmh, E, hleftp, hrightp, hlast⟩ :=
        pcoreRun_spec _ arr arr' low high mid hok hlh hlen
      refine ⟨pv, rfl, by omega, hlen, L, P, F, hlm, hmh, E, ?_, ?_, ?_⟩
      · intro x hx
        exact of_decide_eq_true (hleftp x hx)
      · intro x hx
        exact of_decide_eq_false (hrightp x hx)
      · intro hcmp hlow
        exact hlast pv hpv (decide_eq_true hcmp) hlow

theorem partition_total (arr : List Int) (low high : Nat)
    (hlh : low ≤ high) (h1 : 1 ≤ high) (hlen : high ≤ arr.length) :
    ∃ r, partition arr low high = .ok r := by
  have h0 : ¬ high = 0 := by omega
  have hpv : arr[high - 1]? = some arr[high - 1] :=
    List.getElem?_eq_getElem (by omega)
  obtain ⟨r, hr⟩ :=
    pcore_total (fun y => decide (y ≤ arr[high - 1])) (high - low) arr low low (by omega)
  refine ⟨r, ?_⟩
  simp only [partition, if_neg h0, hpv]
  exact hr

theorem partitionGen_total {T : Type} [Comparator T] [Copier T]
    (arr : List T) (low high : Nat)
    (hlh : low ≤ high) (h1 : 1 ≤ high) (hlen : high ≤ arr.length) :
    ∃ r, partitionGen arr low high = .ok r := by
  have h0 : ¬ high = 0 := by omega
  have hpv : arr[high - 1]? = some arr[high - 1] :=
    List.getElem?_eq_getElem (by omega)
  obtain ⟨r, hr⟩ :=
    pcore_total
      (fun y => decide (Comparator.compare y (Copier.copy arr[high - 1]) = Ordering.lt))
      (high - low) arr low low (by omega)
  refine ⟨r, ?_⟩
  simp only [partitionGen, if_neg h0, hpv]
  exact hr

/-! ## Recursive driver lemmas -/

theorem getD_of_getElem? (l : List α) (k : Nat) (v d : α) (h : l[k]? = some v) :
    l.getD k d = v := by
  rw [List.getD_eq_getElem?_getD, h]
  rfl

theorem getD_mem_window (l : List Int) (a b k : Nat) (ha : a ≤ k) (hk : k < b)
    (hb : b ≤ l.length) : l.getD k 0 ∈ window l a b := by
  apply (mem_window l a b _).mpr
  have hkl : k < l.length := by omega
  have h1 : l[k]? = some l[k] := List.getElem?_eq_getElem hkl
  refine ⟨k, ha, hk, ?_⟩
  rw [h1, List.getD_eq_getElem?_getD, h1]
  rfl

theorem quicksort_succ (fuel : Nat) (arr : List Int) (low high : Nat) :
    quicksort (fuel + 1) arr low high =
      if low < high then
        match partition arr low high with
        | .error e => .error e
        | .ok (a1, mid) =>
          if mid = 0 then .error .underflow
          else
            match quicksort fuel a1 low (mid - 1) with
            | .error e => .error e
            | .ok a2 => quicksort fuel a2 mid high
      else .ok arr := by
  rw [quicksort]
  rw [if_pos ⟨Nat.zero_le low, Nat.zero_le high⟩]

theorem quicksortGen_succ {T : Type} [Comparator T] [Copier T]
    (fuel : Nat) (arr : List T) (low high : Nat) :
    quicksortGen (fuel + 1) arr low high =
      if low < high then
        match partitionGen arr low high with
        | .error e => .error e
        | .ok (a1, mid) =>
          if mid = 0 then .error .underflow
          else
            match quicksortGen fuel a1 low (mid - 1) with
            | .error e => .error e
            | .ok a2 => quicksortGen fuel a2 mid high
      else .ok arr := by
  rw [quicksortGen]
  rw [if_pos ⟨Nat.zero_le low, Nat.zero_le high⟩]

theorem quicksort_ok_facts :
    ∀ (fuel : Nat) (arr : List Int) (low high : Nat) (arr' : List Int),
      quicksort fuel arr low high = .ok arr' →
      arr'.length = arr.length ∧ List.Perm arr' arr ∧
      (∀ k, k < low ∨ high ≤ k → arr'[k]? = arr[k]?) := by
  intro fuel
  induction fuel with
  | zero =>
    intro arr low high arr' hok
    exact Except.noConfusion hok
  | succ fuel ih =>
    intro arr low high arr' hok
    rw [quicksort_succ] at hok
    by_cases hlh : low < high
    · rw [if_pos hlh] at hok
      cases hpart : partition arr low high with
      | error e =>
        simp only [hpart] at hok
        exact Except.noConfusion hok
      | ok r =>
        obtain ⟨a1, mid⟩ := r
        simp only [hpart] at hok
        by_cases hmid : mid = 0
        · rw [if_pos hmid] at hok
          exact Except.noConfusion hok
        · rw [if_neg hmid] at hok
          cases hleft : quicksort fuel a1 low (mid - 1) with
          | error e =>
            simp only [hleft] at hok
            exact Except.noConfusion hok
          | ok a2 =>
            simp only [hleft] at hok
            obtain ⟨pivot, hpv, hh1, hhlen, L0, P0, F0, hlm, hmh, E0, hla, hra, hlast⟩ :=
              partition_ok_spec arr a1 low high mid hpart (le_of_lt hlh)
            obtain ⟨L1, P1, F1⟩ := ih a1 low (mid - 1) a2 hleft
            obtain ⟨L2, P2, F2⟩ := ih a2 mid high arr' hok
            refine ⟨by rw [L2, L1, L0], P2.trans (P1.trans P0), ?_⟩
            intro k hk
            have h2 : arr'[k]? = a2[k]? := by
              apply F2 k
              rcases hk with h | h
              · exact Or.inl (by omega)
              · exact Or.inr h
            have h1 : a2[k]? = a1[k]? := by
              apply F1 k
              rcases hk with h | h
              · exact Or.inl h
              · exact Or.inr (by omega)
            rw [h2, h1, F0 k hk]
    · rw [if_neg hlh] at hok
      obtain rfl := Except.ok.inj hok
      exact ⟨rfl, List.Perm.refl _, fun k _ => rfl⟩

theorem quicksortGen_ok_facts {T : Type} [Comparator T] [Copier T] :
    ∀ (fuel : Nat) (arr : List T) (low high : Nat) (arr' : List T),
      quicksortGen fuel arr low high = .ok arr' →
      arr'.length = arr.length ∧ List.Perm arr' arr ∧
      (∀ k, k < low ∨ high ≤ k → arr'[k]? = arr[k]?) := by
  intro fuel
  induction fuel with
  | zero =>
    intro arr low high arr' hok
    exact Except.noConfusion hok
  | succ fuel ih =>
    intro arr low high arr' hok
    rw [quicksortGen_succ] at hok
    by_cases hlh : low < high
    · rw [if_pos hlh] at hok
      cases hpart : partitionGen arr low high with
      | error e =>
        simp only [hpart] at hok
        exact Except.noConfusion hok
      | ok r =>
        obtain ⟨a1, mid⟩ := r
        simp only [hpart] at hok
        by_cases hmid : mid = 0
        · rw [if_pos hmid] at hok
          exact Except.noConfusion hok
        · rw [if_neg hmid] at hok
          cases hleft : quicksortGen fuel a1 low (mid - 1) with
          | error e =>
            simp only [hleft] at hok
            exact Except.noConfusion hok
          | ok a2 =>
            simp only [hleft] at hok
            obtain ⟨pv, hpv, hh1, hhlen, L0, P0, F0, hlm, hmh, E0, hla, hra, hlast⟩ :=
              partitionGen_ok_spec arr a1 low high mid hpart (le_of_lt hlh)
            obtain ⟨L1, P1, F1⟩ := ih a1 low (mid - 1) a2 hleft
            obtain ⟨L2, P2, F2⟩ := ih a2 mid high arr' hok
            refine ⟨by rw [L2, L1, L0], P2.trans (P1.trans P0), ?_⟩
            intro k hk
            have h2 : arr'[k]? = a2[k]? := by
              apply F2 k
              rcases hk with h | h
              · exact Or.inl (by omega)
              · exact Or.inr h
            have h1 : a2[k]? = a1[k]? := by
              apply F1 k
              rcases hk with h | h
              · exact Or.inl h
              · exact Or.inr (by omega)
            rw [h2, h1, F0 k hk]
    · rw [if_neg hlh] at hok
      obtain rfl := Except.ok.inj hok
      exact ⟨rfl, List.Perm.refl _, fun k _ => rfl⟩

theorem quicksort_total :
    ∀ (fuel : Nat) (arr : List Int) (low high : Nat), high - low < fuel →
      high ≤ arr.length → ∃ arr', quicksort fuel arr low high = .ok arr' := by
  intro fuel
  induction fuel with
  | zero =>
    intro arr low high hf _
    omega
  | succ fuel ih =>
    intro arr low high hf hlen
    by_cases hlh : low < high
    · obtain ⟨r, hr⟩ := partition_total arr low high (by omega) (by omega) hlen
      obtain ⟨a1, mid⟩ := r
      obtain ⟨pivot, hpv, hh1, hhlen, L0, P0, F0, hlm, hmh, E0, hla, hra, hlast⟩ :=
        partition_ok_spec arr a1 low high mid hr (by omega)
      obtain ⟨hlowmid, hpiv1⟩ := hlast hlh
      have hmid0 : ¬ mid = 0 := by omega
      obtain ⟨a2, h2⟩ := ih a1 low (mid - 1) (by omega) (by rw [L0]; omega)
      obtain ⟨L1, P1, F1⟩ := quicksort_ok_facts fuel a1 low (mid - 1) a2 h2
      obtain ⟨a3, h3⟩ := ih a2 mid high (by omega) (by rw [L1, L0]; omega)
      refine ⟨a3, ?_⟩
      rw [quicksort_succ, if_pos hlh]
      simp only [hr, if_neg hmid0, h2]
      exact h3
    · refine ⟨arr, ?_⟩
      rw [quicksort_succ, if_neg hlh]

theorem quicksortGen_total {T : Type} [Comparator T] [Copier T]
    (hc : ∀ x : T, Comparator.compare x (Copier.copy x) = Ordering.lt) :
    ∀ (fuel : Nat) (arr : List T) (low high : Nat), high - low < fuel →
      high ≤ arr.length → ∃ arr', quicksortGen fuel arr low high = .ok arr' := by
  intro fuel
  induction fuel with
  | zero =>
    intro arr low high hf _
    omega
  | succ fuel ih =>
    intro arr low high hf hlen
    by_cases hlh : low < high
    · obtain ⟨r, hr⟩ := partitionGen_total arr low high (by omega) (by omega) hlen
      obtain ⟨a1, mid⟩ := r
      obtain ⟨pv, hpv, hh1, hhlen, L0, P0, F0, hlm, hmh, E0, hla, hra, hlast⟩ :=
        partitionGen_ok_spec arr a1 low high mid hr (by omega)
      obtain ⟨hlowmid, hpiv1⟩ := hlast (hc pv) hlh
      have hmid0 : ¬ mid = 0 := by omega
      obtain ⟨a2, h2⟩ := ih a1 low (mid - 1) (by omega) (by rw [L0]; omega)
      obtain ⟨L1, P1, F1⟩ := quicksortGen_ok_facts fuel a1 low (mid - 1) a2 h2
      obtain ⟨a3, h3⟩ := ih a2 mid high (by omega) (by rw [L1, L0]; omega)
      refine ⟨a3, ?_⟩
      rw [quicksortGen_succ, if_pos hlh]
      simp only [hr, if_neg hmid0, h2]
      exact h3
    · refine ⟨arr, ?_⟩
      rw [quicksortGen_succ, if_neg hlh]

/-- The heart of the functional-correctness argument: whenever the numeric
driver returns, the window `[low, high)` of the result is ascending.  The
glue between the two recursive calls uses: every element left of the split is
`≤ pivot`, the pivot itself sits at `mid - 1`, and every element right of the
split is `> pivot`. -/
theorem quicksort_sorted :
    ∀ (fuel : Nat) (arr : List Int) (low high : Nat) (arr' : List Int),
      quicksort fuel arr low high = .ok arr' → sortedOn arr' low high := by
  intro fuel
  induction fuel with
  | zero =>
    intro arr low high arr' hok
    exact Except.noConfusion hok
  | succ fuel ih =>
    intro arr low high arr' hok
    rw [quicksort_succ] at hok
    by_cases hlh : low < high
    · rw [if_pos hlh] at hok
      cases hpart : partition arr low high with
      | error e =>
        simp only [hpart] at hok
        exact Except.noConfusion hok
      | ok r =>
        obtain ⟨a1, mid⟩ := r
        simp only [hpart] at hok
        by_cases hmid : mid = 0
        · rw [if_pos hmid] at hok
          exact Except.noConfusion hok
        · rw [if_neg hmid] at hok
          cases hleft : quicksort fuel a1 low (mid - 1) with
          | error e =>
            simp only [hleft] at hok
            exact Except.noConfusion hok
          | ok a2 =>
            simp only [hleft] at hok
            obtain ⟨pivot, hpv, hh1, hhlen, L0, P0, F0, hlm, hmh, E0, hla, hra, hlast⟩ :=
              partition_ok_spec arr a1 low high mid hpart (le_of_lt hlh)
            obtain ⟨hlowmid, hpiv1⟩ := hlast hlh
            obtain ⟨L1, P1, F1⟩ := quicksort_ok_facts fuel a1 low (mid - 1) a2 hleft
            obtain ⟨L2, P2, F2⟩ := quicksort_ok_facts fuel a2 mid high arr' hok
            have S1 : sortedOn a2 low (mid - 1) := ih a1 low (mid - 1) a2 hleft
            have S2 : sortedOn arr' mid high := ih a2 mid high arr' hok
            have len2 : a2.length = arr.length := L1.trans L0
            have len3 : arr'.length = arr.length := L2.trans len2
            -- the pivot value sits at position mid - 1 in all later stages
            have hpiv2 : a2[mid - 1]? = some pivot :=
              (F1 (mid - 1) (Or.inr (le_refl _))).trans hpiv1
            have hpiv3 : arr'[mid - 1]? = some pivot :=
              (F2 (mid - 1) (Or.inl (by omega))).trans hpiv2
            -- every element of [low, mid-1) in a2 is ≤ pivot
            have W1 : List.Perm (window a2 low (mid - 1)) (window a1 low (mid - 1)) :=
              window_perm_of_frame a2 a1 low (mid - 1) L1 P1 F1 (by omega)
                (by rw [L1, L0]; omega)
            have hsubW : ∀ x ∈ window a1 low (mid - 1), x ∈ window a1 low mid := by
              intro x hx
              rw [window_take a1 low mid (mid - 1) (by omega)] at hx
              exact List.mem_of_mem_take hx
            have A2 : ∀ k, low ≤ k → k < mid - 1 → a2.getD k 0 ≤ pivot := by
              intro k h1 h2
              have hmem : a2.getD k 0 ∈ window a2 low (mid - 1) :=
                getD_mem_window a2 low (mid - 1) k h1 h2 (by rw [len2]; omega)
              exact hla _ (hsubW _ (W1.mem_iff.mp hmem))
            -- every element of [low, mid) in arr' is ≤ pivot
            have A3 : ∀ k, low ≤ k → k < mid → arr'.getD k 0 ≤ pivot := by
              intro k h1 h2
              have hframe : arr'[k]? = a2[k]? := F2 k (Or.inl h2)
              by_cases hk1 : k < mid - 1
              · have : arr'.getD k 0 = a2.getD k 0 := by
                  rw [List.getD_eq_getElem?_getD, List.getD_eq_getElem?_getD, hframe]
                rw [this]
                exact A2 k h1 hk1
              · have hk2 : k = mid - 1 := by omega
                subst hk2
                rw [getD_of_getElem? arr' (mid - 1) pivot 0 hpiv3]
            -- every element of [mid, high) in arr' is > pivot
            have EqRight : window a2 mid high = window a1 mid high :=
              window_eq_of_agree a2 a1 mid high (fun k hk _ => F1 k (Or.inr (by omega)))
            have W2 : List.Perm (window arr' mid high) (window a2 mid high) :=
              window_perm_of_frame arr' a2 mid high L2 P2 F2 hmh (by rw [len3]; omega)
            have B3 : ∀ k, mid ≤ k → k < high → pivot < arr'.getD k 0 := by
              intro k h1 h2
              have hmem : arr'.getD k 0 ∈ window arr' mid high :=
                getD_mem_window arr' mid high k h1 h2 (by rw [len3]; omega)
              apply hra
              rw [← EqRight]
              exact W2.mem_iff.mp hmem
            -- the left window of arr' is still sorted
            have C : sortedOn arr' low (mid - 1) := by
              intro i j h1 h2 h3
              have hi : arr'.getD i 0 = a2.getD i 0 := by
                rw [List.getD_eq_getElem?_getD, List.getD_eq_getElem?_getD,
                  F2 i (Or.inl (by omega))]
              have hj : arr'.getD j 0 = a2.getD j 0 := by
                rw [List.getD_eq_getElem?_getD, List.getD_eq_getElem?_getD,
                  F2 j (Or.inl (by omega))]
              rw [hi, hj]
              exact S1 i j h1 h2 h3
            -- glue
            intro i j h1 h2 h3
            rcases Nat.lt_or_ge j mid with hjm | hjm
            · by_cases hj1 : j < mid - 1
              · exact C i j h1 h2 hj1
              · have hj2 : j = mid - 1 := by omega
                subst hj2
                rw [getD_of_getElem? arr' (mid - 1) pivot 0 hpiv3]
                exact A3 i h1 (by omega)
            · rcases Nat.lt_or_ge i mid with him | him
              · exact le_of_lt (lt_of_le_of_lt (A3 i h1 him) (B3 j hjm h3))
              · exact S2 i j him h2 h3
    · rw [if_neg hlh] at hok
      obtain rfl := Except.ok.inj hok
      intro i j h1 h2 h3
      omega

/-! ## Facts about the top-level `sort` -/

theorem sort_spec (arr : List Int) :
    quicksort (arr.length + 1) arr 0 arr.length = .ok (sort arr) := by
  obtain ⟨arr', h⟩ :=
    quicksort_total (arr.length + 1) arr 0 arr.length (by omega) (le_refl _)
  have hs : sort arr = arr' := by
    simp only [sort, h]
  rw [hs, h]

theorem sort_length (arr : List Int) : (sort arr).length = arr.length :=
  (quicksort_ok_facts _ _ _ _ _ (sort_spec arr)).1

theorem sort_perm (arr : List Int) : List.Perm (sort arr) arr :=
  (quicksort_ok_facts _ _ _ _ _ (sort_spec arr)).2.1

theorem sort_sortedOn (arr : List Int) : sortedOn (sort arr) 0 arr.length :=
  quicksort_sorted _ _ _ _ _ (sort_spec arr)

theorem sortedOn_adj (l : List Int)
    (h : ∀ i, i + 1 < l.length → l.getD i 0 ≤ l.getD (i + 1) 0) :
    sortedOn l 0 l.length := by
  have key : ∀ d i, i + d < l.length → l.getD i 0 ≤ l.getD (i + d) 0 := by
    intro d
    induction d with
    | zero =>
      intro i _
      rw [Nat.add_zero]
    | succ d ihd =>
      intro i hi
      have h1 : l.getD i 0 ≤ l.getD (i + d) 0 := ihd i (by omega)
      have h2 : l.getD (i + d) 0 ≤ l.getD (i + d + 1) 0 := h (i + d) (by omega)
      have h3 : i + (d + 1) = i + d + 1 := by omega
      rw [h3]
      exact le_trans h1 h2
  intro i j h1 h2 h3
  have h4 : j = i + (j - i) := by omega
  rw [h4]
  exact key (j - i) i (by omega)

theorem sorted_of_sortedOn (l : List Int) (h : sortedOn l 0 l.length) :
    l.Sorted (· ≤ ·) := by
  apply List.pairwise_iff_getElem.mpr
  intro i j hi hj hij
  have hle := h i j (Nat.zero_le i) hij hj
  have hgi : l.getD i 0 = l[i] := getD_of_getElem? l i _ 0 (List.getElem?_eq_getElem hi)
  have hgj : l.getD j 0 = l[j] := getD_of_getElem? l j _ 0 (List.getElem?_eq_getElem hj)
  rw [hgi, hgj] at hle
  exact hle

theorem sort_eq_self_of_sortedOn (arr : List Int) (hs : sortedOn arr 0 arr.length) :
    sort arr = arr := by
  have h1 : List.Sorted (· ≤ ·) (sort arr) := by
    apply sorted_of_sortedOn
    have := sort_sortedOn arr
    rw [← sort_length arr] at this
    exact this
  have h2 : List.Sorted (· ≤ ·) arr := sorted_of_sortedOn _ hs
  exact List.eq_of_perm_of_sorted (sort_perm arr) h1 h2

/-! ## Base-case and singleton computations -/

theorem swapL_self (l : List α) (i : Nat) : swapL l i i = l := by
  unfold swapL
  cases hi : l[i]? with
  | none => rfl
  | some a =>
    show (l.set i a).set i a = l
    rw [List.set_set]
    exact set_self_of_getElem? l i a hi

theorem pcore_singleton (p : α → Bool) (arr : List α) (j : Nat) (x : α)
    (hx : arr[j]? = some x) (hp : p x = true) :
    pcore p 1 arr j j = Except.ok (arr, j + 1) := by
  simp only [pcore, hx, if_pos hp, swapL_self]

theorem partition_singleton (arr : List Int) (low : Nat) (hlow : low < arr.length) :
    partition arr low (low + 1) = Except.ok (arr, low + 1) := by
  have h0 : ¬ low + 1 = 0 := by omega
  have hx : arr[low]? = some arr[low] := List.getElem?_eq_getElem hlow
  have hsub : low + 1 - 1 = low := by omega
  have hsub2 : low + 1 - low = 1 := by omega
  simp only [partition, if_neg h0, hsub, hx, hsub2]
  exact pcore_singleton _ arr low arr[low] hx (by simp)

theorem partitionGen_singleton {T : Type} [Comparator T] [Copier T]
    (arr : List T) (low : Nat) (hlow : low < arr.length) (x : T)
    (hx : arr[low]? = some x)
    (hc : Comparator.compare x (Copier.copy x) = Ordering.lt) :
    partitionGen arr low (low + 1) = Except.ok (arr, low + 1) := by
  have h0 : ¬ low + 1 = 0 := by omega
  have hsub : low + 1 - 1 = low := by omega
  have hsub2 : low + 1 - low = 1 := by omega
  simp only [partitionGen, if_neg h0, hsub, hx, hsub2]
  exact pcore_singleton _ arr low x hx (decide_eq_true hc)

theorem quicksort_done (fuel : Nat) (arr : List Int) (low high : Nat) (h : high ≤ low) :
    quicksort (fuel + 1) arr low high = Except.ok arr := by
  rw [quicksort_succ, if_neg (by omega)]

theorem quicksortGen_done {T : Type} [Comparator T] [Copier T]
    (fuel : Nat) (arr : List T) (low high : Nat) (h : high ≤ low) :
    quicksortGen (fuel + 1) arr low high = Except.ok arr := by
  rw [quicksortGen_succ, if_neg (by omega)]

theorem quicksort_singleton (arr : List Int) (low : Nat) (fuel : Nat)
    (hlow : low < arr.length) (hf : 2 ≤ fuel) :
    quicksort fuel arr low (low + 1) = Except.ok arr := by
  obtain ⟨f, rfl⟩ : ∃ f, fuel = f + 1 + 1 := ⟨fuel - 2, by omega⟩
  rw [quicksort_succ, if_pos (by omega)]
  simp only [partition_singleton arr low hlow]
  rw [if_neg (by omega : ¬ low + 1 = 0)]
  have hsub : low + 1 - 1 = low := by omega
  rw [hsub]
  have hbase : quicksort (f + 1) arr low low = Except.ok arr :=
    quicksort_done f arr low low (le_refl low)
  simp only [hbase]
  exact quicksort_done f arr (low + 1) (low + 1) (le_refl _)

theorem quicksortGen_singleton {T : Type} [Comparator T] [Copier T]
    (arr : List T) (low : Nat) (fuel : Nat) (x : T)
    (hlow : low < arr.length) (hf : 2 ≤ fuel)
    (hx : arr[low]? = some x)
    (hc : Comparator.compare x (Copier.copy x) = Ordering.lt) :
    quicksortGen fuel arr low (low + 1) = Except.ok arr := by
  obtain ⟨f, rfl⟩ : ∃ f, fuel = f + 1 + 1 := ⟨fuel - 2, by omega⟩
  rw [quicksortGen_succ, if_pos (by omega)]
  simp only [partitionGen_singleton arr low hlow x hx hc]
  rw [if_neg (by omega : ¬ low + 1 = 0)]
  have hsub : low + 1 - 1 = low := by omega
  rw [hsub]
  have hbase : quicksortGen (f + 1) arr low low = Except.ok arr :=
    quicksortGen_done f arr low low (le_refl low)
  simp only [hbase]
  exact quicksortGen_done f arr (low + 1) (low + 1) (le_refl _)

/-! ## Concrete element types for the generic path

`Item` mirrors the comparator shape of the repository's test type `Node`: any
non-greater case collapses to `Less`, so `compare x (copy x) = Less`.
`EqItem` has a comparator that is honest about equality: it returns `Equal`
for any two values (every `EqItem` is order-equivalent). -/

structure Item where
  val : Int
deriving DecidableEq

instance : Comparator Item :=
  ⟨fun a b => if a.val > b.val then Ordering.gt else Ordering.lt⟩

instance : Copier Item := ⟨fun a => Item.mk a.val⟩

theorem item_compare_copy_lt (x : Item) :
    Comparator.compare x (Copier.copy x) = Ordering.lt := by
  show (if x.val > x.val then Ordering.gt else Ordering.lt) = Ordering.lt
  rw [if_neg (lt_irrefl x.val)]

structure EqItem where
  val : Int
deriving DecidableEq

instance : Comparator EqItem := ⟨fun _ _ => Ordering.eq⟩

instance : Copier EqItem := ⟨fun a => EqItem.mk a.val⟩

/-! ## Claim theorems -/

/-- C1: for every input vector of `i64`, after `sort` returns the sequence is
ascending: for all `i` in `1..len`, `result[i-1] ≤ result[i]`. -/
theorem sort_ascending (arr : List Int) (i : Nat) (h1 : 1 ≤ i)
    (h2 : i < (sort arr).length) :
    (sort arr).getD (i - 1) 0 ≤ (sort arr).getD i 0 := by
  have hs := sort_sortedOn arr
  have hl := sort_length arr
  exact hs (i - 1) i (Nat.zero_le _) (by omega) (by omega)

theorem sort_ascending_w :
    1 ≤ 1 ∧ 1 < (sort [5, 3, 8, 1, 9, 2]).length ∧
      (sort [5, 3, 8, 1, 9, 2]).getD 0 0 ≤ (sort [5, 3, 8, 1, 9, 2]).getD 1 0 :=
  ⟨le_refl 1, by decide, sort_ascending [5, 3, 8, 1, 9, 2] 1 (le_refl 1) (by decide)⟩

/-- C2: the multiset of elements after `sort` (and after `sort_gen`, for every
`Comparator + Copier` type, whenever the call returns) equals the multiset of
elements before the call. -/
theorem sort_multiset_eq :
    (∀ arr : List Int, ((sort arr : List Int) : Multiset Int) = (arr : Multiset Int)) ∧
    (∀ (T : Type) [instC : Comparator T] [instP : Copier T] (fuel : Nat)
      (arr res : List T), sortGen fuel arr = Except.ok res →
      ((res : List T) : Multiset T) = (arr : Multiset T)) := by
  constructor
  · intro arr
    exact Multiset.coe_eq_coe.mpr (sort_perm arr)
  · intro T instC instP fuel arr res hok
    exact Multiset.coe_eq_coe.mpr (quicksortGen_ok_facts fuel arr 0 arr.length res hok).2.1

theorem sort_multiset_eq_w :
    (([Item.mk 1, Item.mk 2] : List Item) : Multiset Item)
      = (([Item.mk 2, Item.mk 1] : List Item) : Multiset Item) :=
  sort_multiset_eq.2 Item 5 [Item.mk 2, Item.mk 1] [Item.mk 1, Item.mk 2] rfl

/-- C3 counterexample: with a comparator that answers `Equal` (a lawful answer
for identical values), `partition_gen` returns `mid = low`, so the recursive
range `[mid, high)` equals the caller's `[low, high)` — it does not shrink —
and the generic driver faults by `usize` underflow on `mid - 1` instead of
terminating. -/
theorem quicksortGen_shrink_cex :
    partitionGen ([EqItem.mk 1] : List EqItem) 0 1 = Except.ok ([EqItem.mk 1], 0) ∧
    quicksortGen 5 ([EqItem.mk 1] : List EqItem) 0 1 = Except.error Fault.underflow :=
  ⟨rfl, rfl⟩

/-- C3 amended: the numeric partition always returns `low < mid ≤ high`, so
both numeric recursive ranges strictly shrink and the numeric driver
terminates; the generic driver terminates for every comparator satisfying
`compare x (copy x) = Less` (as the repository's test comparator does), with
fuel `high - low + 1` sufficient. -/
theorem quicksort_shrink_amended :
    (∀ (arr : List Int) (low high : Nat), low < high → high ≤ arr.length →
      ∃ arr1 mid, partition arr low high = Except.ok (arr1, mid) ∧
        low < mid ∧ mid ≤ high) ∧
    (∀ (T : Type) [instC : Comparator T] [instP : Copier T],
      (∀ x : T, Comparator.compare x (Copier.copy x) = Ordering.lt) →
      ∀ (fuel : Nat) (arr : List T) (low high : Nat),
        high ≤ arr.length → high - low < fuel →
        ∃ res, quicksortGen fuel arr low high = Except.ok res) := by
  constructor
  · intro arr low high hlh hlen
    obtain ⟨r, hr⟩ := partition_total arr low high (le_of_lt hlh) (by omega) hlen
    obtain ⟨a1, mid⟩ := r
    obtain ⟨pivot, hpv, _, _, _, _, _, hlm, hmh, _, _, _, hlast⟩ :=
      partition_ok_spec arr a1 low high mid hr (le_of_lt hlh)
    exact ⟨a1, mid, hr, (hlast hlh).1, hmh⟩
  · intro T instC instP hc fuel arr low high hlen hf
    exact quicksortGen_total hc fuel arr low high hf hlen

theorem quicksort_shrink_amended_w :
    (∃ arr1 mid, partition [3, 1] 0 2 = Except.ok (arr1, mid) ∧ 0 < mid ∧ mid ≤ 2) ∧
    (∃ res, quicksortGen 3 ([Item.mk 2, Item.mk 1] : List Item) 0 2 = Except.ok res) :=
  ⟨quicksort_shrink_amended.1 [3, 1] 0 2 (by decide) (by decide),
   quicksort_shrink_amended.2 Item item_compare_copy_lt 3 [Item.mk 2, Item.mk 1] 0 2
     (by decide) (by decide)⟩

/-- C4 counterexample: `sort_gen` on a one-element sequence faults (usize
underflow computing `mid - 1`) when the comparator answers `Equal` on the
element compared with its own copy. -/
theorem sortGen_singleton_cex :
    sortGen 5 ([EqItem.mk 1] : List EqItem) = Except.error Fault.underflow := rfl

/-- C4 amended: `sort` returns sequences of length 0 or 1 unchanged and never
faults; `sort_gen` does so for the empty sequence always, and for a singleton
`[x]` exactly under the extra assumption `compare x (copy x) = Less` (true for
comparators like the repository's test `Node`, false for comparators honest
about equality, which make the call fault). -/
theorem sort_small_amended :
    (sort ([] : List Int) = [] ∧ ∀ x : Int, sort [x] = [x]) ∧
    (∀ (T : Type) [instC : Comparator T] [instP : Copier T] (fuel : Nat),
      1 ≤ fuel → sortGen fuel ([] : List T) = Except.ok []) ∧
    (∀ (T : Type) [instC : Comparator T] [instP : Copier T] (x : T) (fuel : Nat),
      2 ≤ fuel → Comparator.compare x (Copier.copy x) = Ordering.lt →
      sortGen fuel [x] = Except.ok [x]) := by
  refine ⟨⟨?_, ?_⟩, ?_, ?_⟩
  · exact List.perm_nil.mp (sort_perm ([] : List Int))
  · intro x
    exact List.perm_singleton.mp (sort_perm [x])
  · intro T instC instP fuel h1
    obtain ⟨f, rfl⟩ : ∃ f, fuel = f + 1 := ⟨fuel - 1, by omega⟩
    show quicksortGen (f + 1) ([] : List T) 0 0 = Except.ok []
    exact quicksortGen_done f [] 0 0 (le_refl 0)
  · intro T instC instP x fuel h2 hc
    show quicksortGen fuel [x] 0 1 = Except.ok [x]
    exact quicksortGen_singleton [x] 0 fuel x (by simp) h2 rfl hc

theorem sort_small_amended_w :
    sort [7] = [7] ∧ sortGen 1 ([] : List Item) = Except.ok [] ∧
      sortGen 2 [Item.mk 9] = Except.ok [Item.mk 9] :=
  ⟨sort_small_amended.1.2 7,
   sort_small_amended.2.1 Item 1 (le_refl 1),
   sort_small_amended.2.2 Item (Item.mk 9) 2 (le_refl 2)
     (item_compare_copy_lt (Item.mk 9))⟩

/-- C5 counterexample: on `[⟨3⟩, ⟨7⟩]` with a comparator that answers `Equal`
everywhere, `partition_gen` over `[0, 2)` returns index `0` and leaves the
array unchanged: the element `⟨3⟩`, order-equal (hence `≤`) to the pivot, does
not lie strictly below the returned index, and the pivot `⟨7⟩` rests at
position `1`, which is not `≤ 0`. -/
theorem partitionGen_pivot_cex :
    partitionGen ([EqItem.mk 3, EqItem.mk 7] : List EqItem) 0 2
      = Except.ok ([EqItem.mk 3, EqItem.mk 7], 0) ∧
    Comparator.compare (EqItem.mk 3) (Copier.copy (EqItem.mk 7)) = Ordering.eq ∧
    ([EqItem.mk 3, EqItem.mk 7] : List EqItem)[1]? = some (EqItem.mk 7) ∧
    ¬ (1 ≤ 0) :=
  ⟨rfl, rfl, rfl, by decide⟩

/-- C5 amended: the numeric partition satisfies the claim as stated (elements
`≤` pivot end below the returned index, the pivot rests at `mid - 1 ≤ mid`);
the generic partition guarantees this only for elements whose comparison with
the pivot copy is strictly `Less` — non-`Less` (including `Equal`) elements
occupy the positions from the returned index up. -/
theorem partition_post_amended :
    (∀ (arr arr' : List Int) (low high mid : Nat),
      low < high → partition arr low high = Except.ok (arr', mid) →
      ∃ pivot, arr[high - 1]? = some pivot ∧
        (∀ x ∈ window arr' low mid, x ≤ pivot) ∧
        (∀ x ∈ window arr' mid high, pivot < x) ∧
        arr'[mid - 1]? = some pivot ∧ mid - 1 ≤ mid) ∧
    (∀ (T : Type) [instC : Comparator T] [instP : Copier T]
      (arr arr' : List T) (low high mid : Nat),
      low ≤ high → partitionGen arr low high = Except.ok (arr', mid) →
      ∃ pv, arr[high - 1]? = some pv ∧
        (∀ x ∈ window arr' low mid, Comparator.compare x (Copier.copy pv) = Ordering.lt) ∧
        (∀ x ∈ window arr' mid high,
          ¬ Comparator.compare x (Copier.copy pv) = Ordering.lt)) := by
  constructor
  · intro arr arr' low high mid hlh hok
    obtain ⟨pivot, hpv, _, _, _, _, _, _, _, _, hla, hra, hlast⟩ :=
      partition_ok_spec arr arr' low high mid hok (le_of_lt hlh)
    obtain ⟨_, hpos⟩ := hlast hlh
    exact ⟨pivot, hpv, hla, hra, hpos, by omega⟩
  · intro T instC instP arr arr' low high mid hlh hok
    obtain ⟨pv, hpv, _, _, _, _, _, _, _, _, hla, hra, _⟩ :=
      partitionGen_ok_spec arr arr' low high mid hok hlh
    exact ⟨pv, hpv, hla, hra⟩

theorem partition_post_amended_w :
    (∃ pivot, ([3, 1] : List Int)[2 - 1]? = some pivot ∧
      (∀ x ∈ window ([1, 3] : List Int) 0 1, x ≤ pivot) ∧
      (∀ x ∈ window ([1, 3] : List Int) 1 2, pivot < x) ∧
      ([1, 3] : List Int)[1 - 1]? = some pivot ∧ 1 - 1 ≤ 1) ∧
    (∃ pv, ([Item.mk 2, Item.mk 1] : List Item)[2 - 1]? = some pv ∧
      (∀ x ∈ window ([Item.mk 1, Item.mk 2] : List Item) 0 1,
        Comparator.compare x (Copier.copy pv) = Ordering.lt) ∧
      (∀ x ∈ window ([Item.mk 1, Item.mk 2] : List Item) 1 2,
        ¬ Comparator.compare x (Copier.copy pv) = Ordering.lt)) :=
  ⟨partition_post_amended.1 [3, 1] [1, 3] 0 2 1 (by decide) rfl,
   partition_post_amended.2 Item [Item.mk 2, Item.mk 1] [Item.mk 1, Item.mk 2] 0 2 1
     (by decide) rfl⟩

/-- C6: the numeric partition moves an element into the left side exactly when
it is `≤` the pivot (the left window is the stable `≤`-filter of the scanned
window), whereas the generic partition moves an element exactly when its
comparison with the pivot copy is strictly `Less`; an element comparing
`Equal` to the pivot is never moved left in the generic path. -/
theorem partition_le_vs_lt :
    (∀ (arr arr' : List Int) (low high mid : Nat) (pivot : Int),
      low ≤ high → arr[high - 1]? = some pivot →
      partition arr low high = Except.ok (arr', mid) →
      window arr' low mid = (window arr low high).filter (fun y => decide (y ≤ pivot))) ∧
    (∀ (T : Type) [instC : Comparator T] [instP : Copier T]
      (arr arr' : List T) (low high mid : Nat) (pv : T),
      low ≤ high → arr[high - 1]? = some pv →
      partitionGen arr low high = Except.ok (arr', mid) →
      window arr' low mid = (window arr low high).filter
        (fun y => decide (Comparator.compare y (Copier.copy pv) = Ordering.lt)) ∧
      (∀ x ∈ window arr low high,
        Comparator.compare x (Copier.copy pv) = Ordering.eq →
        x ∉ window arr' low mid)) := by
  constructor
  · intro arr arr' low high mid pivot hlh hpv hok
    obtain ⟨pivot', hpv', _, _, _, _, _, _, _, E, _, _, _⟩ :=
      partition_ok_spec arr arr' low high mid hok hlh
    obtain rfl := Option.some.inj (hpv.symm.trans hpv')
    exact E
  · intro T instC instP arr arr' low high mid pv hlh hpv hok
    obtain ⟨pv', hpv', _, _, _, _, _, _, _, E, _, _, _⟩ :=
      partitionGen_ok_spec arr arr' low high mid hok hlh
    obtain rfl := Option.some.inj (hpv.symm.trans hpv')
    refine ⟨E, ?_⟩
    intro x _hxw hxeq hmem
    rw [E] at hmem
    have hlt := of_decide_eq_true (List.mem_filter.mp hmem).2
    rw [hxeq] at hlt
    exact Ordering.noConfusion hlt

theorem partition_le_vs_lt_w :
    (window ([2, 2] : List Int) 0 2
      = (window ([2, 2] : List Int) 0 2).filter (fun y => decide (y ≤ 2))) ∧
    (window ([EqItem.mk 1, EqItem.mk 2] : List EqItem) 0 0
      = (window ([EqItem.mk 1, EqItem.mk 2] : List EqItem) 0 2).filter
          (fun y => decide (Comparator.compare y (Copier.copy (EqItem.mk 2)) = Ordering.lt)) ∧
      (∀ x ∈ window ([EqItem.mk 1, EqItem.mk 2] : List EqItem) 0 2,
        Comparator.compare x (Copier.copy (EqItem.mk 2)) = Ordering.eq →
        x ∉ window ([EqItem.mk 1, EqItem.mk 2] : List EqItem) 0 0)) :=
  ⟨partition_le_vs_lt.1 [2, 2] [2, 2] 0 2 2 2 (by decide) rfl rfl,
   partition_le_vs_lt.2 EqItem [EqItem.mk 1, EqItem.mk 2] [EqItem.mk 1, EqItem.mk 2]
     0 2 0 (EqItem.mk 2) (by decide) rfl rfl⟩

/-- C7 counterexample: on the one-element range `[0, 1)` the driver does not
take the do-nothing branch: with fuel for exactly one level it recurses (and
runs out of fuel), and `partition` is invoked on the one-element range,
returning split index `1` — refuting "partition is invoked exactly when the
range holds at least two elements". -/
theorem quicksort_singleton_cex :
    quicksort 2 [(5 : Int)] 0 1 = Except.ok [5] ∧
    quicksort 1 [(5 : Int)] 0 1 = Except.error Fault.fuelOut ∧
    partition [(5 : Int)] 0 1 = Except.ok ([5], 1) :=
  ⟨rfl, rfl, rfl⟩

/-- C7 amended: both drivers partition exactly when `low < high`, i.e. when
the range holds at least one (not two) element(s); for `low ≥ high` they do
nothing; on a one-element range the numeric driver invokes `partition` (which
returns `low + 1`) yet leaves the sequence unchanged. -/
theorem quicksort_guard_amended :
    (∀ (fuel : Nat) (arr : List Int) (low high : Nat), high ≤ low →
      quicksort (fuel + 1) arr low high = Except.ok arr) ∧
    (∀ (T : Type) [instC : Comparator T] [instP : Copier T]
      (fuel : Nat) (arr : List T) (low high : Nat), high ≤ low →
      quicksortGen (fuel + 1) arr low high = Except.ok arr) ∧
    (∀ (arr : List Int) (low : Nat), low < arr.length →
      partition arr low (low + 1) = Except.ok (arr, low + 1)) ∧
    (∀ (arr : List Int) (low fuel : Nat), low < arr.length → 2 ≤ fuel →
      quicksort fuel arr low (low + 1) = Except.ok arr) := by
  refine ⟨?_, ?_, ?_, ?_⟩
  · exact fun fuel arr low high h => quicksort_done fuel arr low high h
  · intro T instC instP fuel arr low high h
    exact quicksortGen_done fuel arr low high h
  · exact fun arr low h => partition_singleton arr low h
  · exact fun arr low fuel h1 h2 => quicksort_singleton arr low fuel h1 h2

theorem quicksort_guard_amended_w :
    quicksort 1 ([3, 4] : List Int) 2 0 = Except.ok [3, 4] ∧
    quicksortGen 1 ([Item.mk 3] : List Item) 1 1 = Except.ok [Item.mk 3] ∧
    partition ([4, 5] : List Int) 1 2 = Except.ok ([4, 5], 2) ∧
    quicksort 2 ([9] : List Int) 0 1 = Except.ok [9] :=
  ⟨quicksort_guard_amended.1 0 [3, 4] 2 0 (by decide),
   quicksort_guard_amended.2.1 Item 0 [Item.mk 3] 1 1 (le_refl 1),
   quicksort_guard_amended.2.2.1 [4, 5] 1 (by decide),
   quicksort_guard_amended.2.2.2 [9] 0 2 (by decide) (le_refl 2)⟩

/-- C8: `sort` is idempotent — an already ascending vector is returned
identically, and `sort (sort v) = sort v` for every `v`. -/
theorem sort_idempotent :
    (∀ arr : List Int, (∀ i, 1 ≤ i → i < arr.length →
        arr.getD (i - 1) 0 ≤ arr.getD i 0) → sort arr = arr) ∧
    (∀ v : List Int, sort (sort v) = sort v) := by
  have key : ∀ arr : List Int, (∀ i, 1 ≤ i → i < arr.length →
      arr.getD (i - 1) 0 ≤ arr.getD i 0) → sort arr = arr := by
    intro arr h
    apply sort_eq_self_of_sortedOn
    apply sortedOn_adj
    intro i hi
    have h1 := h (i + 1) (by omega) hi
    have h2 : i + 1 - 1 = i := by omega
    rw [h2] at h1
    exact h1
  refine ⟨key, ?_⟩
  intro v
  apply key
  intro i h1 h2
  have hs := sort_sortedOn v
  have hl := sort_length v
  exact hs (i - 1) i (Nat.zero_le _) (by omega) (by omega)

theorem sort_idempotent_w :
    sort [1, 2, 3] = [1, 2, 3] ∧ sort (sort [3, 1, 2]) = sort [3, 1, 2] :=
  ⟨sort_idempotent.1 [1, 2, 3] (by
      intro i h1 h2
      have h3 : i = 1 ∨ i = 2 := by
        have : ([1, 2, 3] : List Int).length = 3 := rfl
        omega
      rcases h3 with rfl | rfl <;> decide),
   sort_idempotent.2 [3, 1, 2]⟩

/-- C9: a successful numeric `partition` on `[low, high)` with
`low < high ≤ arr.length` returns `mid` with `low + 1 ≤ mid ≤ high`, leaves
the original pivot value at index `mid - 1`, and `mid - 1` never underflows
below `low`. -/
theorem partition_mid_bounds (arr arr' : List Int) (low high mid : Nat)
    (hlh : low < high) (hlen : high ≤ arr.length)
    (hok : partition arr low high = Except.ok (arr', mid)) :
    low + 1 ≤ mid ∧ mid ≤ high ∧ low ≤ mid - 1 ∧ arr'[mid - 1]? = arr[high - 1]? := by
  obtain ⟨pivot, hpv, _, _, _, _, _, _, hmh, _, _, _, hlast⟩ :=
    partition_ok_spec arr arr' low high mid hok (le_of_lt hlh)
  obtain ⟨hlm, hpos⟩ := hlast hlh
  refine ⟨by omega, hmh, by omega, ?_⟩
  rw [hpos, hpv]

theorem partition_mid_bounds_w :
    0 + 1 ≤ 1 ∧ 1 ≤ 2 ∧ 0 ≤ 1 - 1 ∧
      ([1, 3] : List Int)[1 - 1]? = ([3, 1] : List Int)[2 - 1]? :=
  partition_mid_bounds [3, 1] [1, 3] 0 2 1 (by decide) (by decide) rfl

/-- C10: a completed call to `partition`, `partition_gen`, `quicksort` or
`quicksort_gen` on `[low, high)` with `low ≤ high ≤ arr.length` leaves every
position below `low` or at-or-above `high` unchanged. -/
theorem frame_property :
    (∀ (arr arr' : List Int) (low high mid : Nat),
      low ≤ high → high ≤ arr.length →
      partition arr low high = Except.ok (arr', mid) →
      ∀ k, k < low ∨ high ≤ k → arr'[k]? = arr[k]?) ∧
    (∀ (T : Type) [instC : Comparator T] [instP : Copier T]
      (arr arr' : List T) (low high mid : Nat),
      low ≤ high → high ≤ arr.length →
      partitionGen arr low high = Except.ok (arr', mid) →
      ∀ k, k < low ∨ high ≤ k → arr'[k]? = arr[k]?) ∧
    (∀ (fuel : Nat) (arr arr' : List Int) (low high : Nat),
      low ≤ high → high ≤ arr.length →
      quicksort fuel arr low high = Except.ok arr' →
      ∀ k, k < low ∨ high ≤ k → arr'[k]? = arr[k]?) ∧
    (∀ (T : Type) [instC : Comparator T] [instP : Copier T]
      (fuel : Nat) (arr arr' : List T) (low high : Nat),
      low ≤ high → high ≤ arr.length →
      quicksortGen fuel arr low high = Except.ok arr' →
      ∀ k, k < low ∨ high ≤ k → arr'[k]? = arr[k]?) := by
  refine ⟨?_, ?_, ?_, ?_⟩
  · intro arr arr' low high mid hlh _hlen hok
    obtain ⟨pivot, _, _, _, _, _, F, _, _, _, _, _, _⟩ :=
      partition_ok_spec arr arr' low high mid hok hlh
    exact F
  · intro T instC instP arr arr' low high mid hlh _hlen hok
    obtain ⟨pv, _, _, _, _, _, F, _, _, _, _, _, _⟩ :=
      partitionGen_ok_spec arr arr' low high mid hok hlh
    exact F
  · intro fuel arr arr' low high _hlh _hlen hok
    exact (quicksort_ok_facts fuel arr low high arr' hok).2.2
  · intro T instC instP fuel arr arr' low high _hlh _hlen hok
    exact (quicksortGen_ok_facts fuel arr low high arr' hok).2.2

theorem frame_property_w :
    ([9, 1, 3] : List Int)[0]? = ([9, 3, 1] : List Int)[0]? ∧
    ([Item.mk 9, Item.mk 1, Item.mk 3] : List Item)[0]?
      = ([Item.mk 9, Item.mk 3, Item.mk 1] : List Item)[0]? ∧
    ([9, 1, 3] : List Int)[0]? = ([9, 3, 1] : List Int)[0]? ∧
    ([Item.mk 9, Item.mk 1, Item.mk 3] : List Item)[0]?
      = ([Item.mk 9, Item.mk 3, Item.mk 1] : List Item)[0]? :=
  ⟨frame_property.1 [9, 3, 1] [9, 1, 3] 1 3 2 (by decide) (by decide) rfl 0
      (Or.inl (by decide)),
   frame_property.2.1 Item [Item.mk 9, Item.mk 3, Item.mk 1]
      [Item.mk 9, Item.mk 1, Item.mk 3] 1 3 2 (by decide) (by decide) (by rfl) 0
      (Or.inl (by decide)),
   frame_property.2.2.1 4 [9, 3, 1] [9, 1, 3] 1 3 (by decide) (by decide) rfl 0
      (Or.inl (by decide)),
   frame_property.2.2.2 Item 4 [Item.mk 9, Item.mk 3, Item.mk 1]
      [Item.mk 9, Item.mk 1, Item.mk 3] 1 3 (by decide) (by decide) (by rfl) 0
      (Or.inl (by decide))⟩

end QSpec
